import Mathlib

/-!
Verification development for the Merkle-tree membership-proof engine
described in the repository (whitelisted-email Merkle proofs built on a
keccak256-style hash primitive).

The repository source (src/index.js) wires a hash primitive and the
MerkleTree construction / getProof operations together; the tree
operations themselves live in the wrapped library, whose code is not part
of the repository sources. Those operations are therefore modelled here
from the specification (construction with odd-layer duplicate-last
padding, sortPairs pairing policy, proof generation by leaf position,
stateless verification). Digests and items are byte sequences, modelled
as lists of naturals; the hash primitive is an explicit parameter, as the
specification treats it as a pluggable opaque dependency.
-/

namespace MTree

/-- A digest or raw item: a byte sequence. Equality is byte-wise. -/
abbrev Digest := List Nat

/-- Byte-wise (lexicographic) comparison of two byte sequences, the order
used by the sortPairs pairing policy. -/
def lexLe : List Nat → List Nat → Bool
  | [], _ => true
  | _ :: _, [] => false
  | a :: as, b :: bs =>
      if a < b then true
      else if b < a then false
      else lexLe as bs

/-- Concatenation of two digests normalized by byte-wise order: the smaller
digest first. Used when sortPairs is enabled. -/
def sortConcat (a b : Digest) : List Nat :=
  if lexLe a b then a ++ b else b ++ a

/-- Modelled from the spec: the combine step of layer reduction (missing
library code). If sortPairs is enabled the pair is ordered by byte-wise
comparison before concatenation, otherwise it is concatenated in
positional order, and the concatenation is hashed with the primitive. -/
def combine (hash : List Nat → Digest) (sortPairs : Bool) (a b : Digest) : Digest :=
  if sortPairs then hash (sortConcat a b) else hash (a ++ b)

/-- Modelled from the spec: odd-cardinality padding (missing library code).
A layer of odd cardinality is padded to even length by duplicating its
last digest; an even layer is unchanged. -/
def padEven (layer : List Digest) : List Digest :=
  if layer.length % 2 = 0 then layer else layer ++ [layer.getLastD []]

/-- Modelled from the spec: one layer-reduction pass (missing library
code). Each adjacent pair at positions (2k, 2k+1) of an even-length layer
is combined into the parent digest at position k. -/
def reduceLayer (hash : List Nat → Digest) (sortPairs : Bool) : List Digest → List Digest
  | [] => []
  | [_] => []
  | a :: b :: rest => combine hash sortPairs a b :: reduceLayer hash sortPairs rest

/-- One reduction pass halves the layer length (rounding down; reduction
is only ever applied to padded, even-length layers). -/
theorem reduceLayer_length (hash : List Nat → Digest) (sortPairs : Bool) :
    ∀ l : List Digest, (reduceLayer hash sortPairs l).length = l.length / 2
  | [] => by simp [reduceLayer]
  | [_] => by simp [reduceLayer]
  | _ :: _ :: rest => by
      simp [reduceLayer, reduceLayer_length hash sortPairs rest]
      omega

/-- Padding adds one digest to an odd layer and leaves an even layer
unchanged. -/
theorem padEven_length (l : List Digest) :
    (padEven l).length = l.length + l.length % 2 := by
  unfold padEven
  by_cases h : l.length % 2 = 0 <;> simp [h]
  omega

/-- Modelled from the spec: the full layer sequence of the tree (missing
library code), bottom (leaves) to top (root). The current layer is padded
to even length and reduced, repeatedly, until exactly one digest remains. -/
def buildLayers (hash : List Nat → Digest) (sortPairs : Bool) (l : List Digest) :
    List (List Digest) :=
  if l.length ≤ 1 then [l]
  else l :: buildLayers hash sortPairs (reduceLayer hash sortPairs (padEven l))
  termination_by l.length
  decreasing_by
    simp [reduceLayer_length, padEven_length]
    omega

/-- Construction attempted with zero items is the one construction
failure. -/
inductive BuildError where
  | emptyInput
deriving DecidableEq

/-- Proof generation fails only when the item hashes to a digest absent
from the leaf layer. -/
inductive ProofError where
  | notFound
deriving DecidableEq

/-- A Merkle tree: the ordered sequence of layers, leaves first, the
single-digest root layer last. -/
structure Tree where
  layers : List (List Digest)
deriving DecidableEq

/-- The leaf layer: each item hashed independently into a digest, in input
order. -/
def leafNodes (hash : List Nat → Digest) (items : List (List Nat)) : List Digest :=
  items.map hash

/-- Modelled from the spec: tree construction (missing library code).
Fails with EmptyInputError on an empty item sequence; otherwise hashes
the items into leaves and reduces layer by layer up to the root. -/
def build (hash : List Nat → Digest) (sortPairs : Bool) (items : List (List Nat)) :
    Except BuildError Tree :=
  if items.isEmpty then .error .emptyInput
  else .ok ⟨buildLayers hash sortPairs (leafNodes hash items)⟩

/-- The leaf layer of a built tree. -/
def Tree.leaves (t : Tree) : List Digest :=
  t.layers.headD []

/-- The root of a layer sequence: the single digest of its top (last)
layer. -/
def rootOfLayers (layers : List (List Digest)) : Digest :=
  (layers.getLastD []).headD []

/-- The root digest of a built tree: the single digest of the top layer. -/
def Tree.root (t : Tree) : Digest :=
  rootOfLayers t.layers

/-- The tree height: the number of reduction passes from leaves to root. -/
def Tree.height (t : Tree) : Nat :=
  t.layers.length - 1

/-- Position of the first occurrence of a digest in a layer, if any. -/
def findPos (d : Digest) : List Digest → Option Nat
  | [] => none
  | x :: xs => if x = d then some 0 else (findPos d xs).map (· + 1)

/-- One step of a Merkle proof: the sibling digest together with the side
indicator telling whether the sibling is the left operand when
recombining (needed only when sortPairs is disabled). -/
structure ProofStep where
  sibling : Digest
  siblingIsLeft : Bool
deriving DecidableEq

/-- Modelled from the spec: the proof-step walk (missing library code).
For each layer from the leaves to just below the root, record the sibling
digest of the padded layer at the paired position (position XOR 1) and
its side, then advance the position by integer division by two. -/
def proofSteps : List (List Digest) → Nat → List ProofStep
  | [], _ => []
  | [_], _ => []
  | layer :: next :: rest, pos =>
      ⟨(padEven layer).getD (pos ^^^ 1) [], pos % 2 == 1⟩ ::
        proofSteps (next :: rest) (pos / 2)

/-- Modelled from the spec: proof generation (missing library code). Hash
the item with the primitive used to build the tree, locate the first
matching position in the leaf layer (NotFoundError when absent), and walk
the layers recording sibling steps. -/
def generateMerkleProof (hash : List Nat → Digest) (t : Tree) (item : List Nat) :
    Except ProofError (List ProofStep) :=
  match findPos (hash item) t.leaves with
  | none => .error .notFound
  | some pos => .ok (proofSteps t.layers pos)

/-- Modelled from the spec: the verifier's per-step concatenation (missing
library code). With sortPairs the pair is re-sorted byte-wise, otherwise
the side indicator places the sibling as the left or right operand. -/
def orderedConcat (sortPairs : Bool) (current sibling : Digest) (siblingIsLeft : Bool) :
    List Nat :=
  if sortPairs then sortConcat current sibling
  else if siblingIsLeft then sibling ++ current else current ++ sibling

/-- The verifier's reduction: fold the proof steps over the running
digest, hashing the ordered concatenation at each step. -/
def verifyFold (hash : List Nat → Digest) (sortPairs : Bool)
    (current : Digest) : List ProofStep → Digest
  | [] => current
  | s :: rest =>
      verifyFold hash sortPairs
        (hash (orderedConcat sortPairs current s.sibling s.siblingIsLeft)) rest

/-- Modelled from the spec: stateless proof verification (missing library
code). Hash the item, fold the proof steps, and compare the final digest
byte-wise against the claimed root. -/
def verify (hash : List Nat → Digest) (sortPairs : Bool) (item : List Nat)
    (proof : List ProofStep) (root : Digest) : Bool :=
  verifyFold hash sortPairs (hash item) proof == root

/-- The three whitelisted email addresses of the repository scenario, as
byte sequences (ASCII codes of email1@example.com and its two
siblings). -/
def email1 : List Nat :=
  [101, 109, 97, 105, 108, 49, 64, 101, 120, 97, 109, 112, 108, 101, 46, 99, 111, 109]

/-- Byte sequence of email2@example.com. -/
def email2 : List Nat :=
  [101, 109, 97, 105, 108, 50, 64, 101, 120, 97, 109, 112, 108, 101, 46, 99, 111, 109]

/-- Byte sequence of email3@example.com. -/
def email3 : List Nat :=
  [101, 109, 97, 105, 108, 51, 64, 101, 120, 97, 109, 112, 108, 101, 46, 99, 111, 109]

/-- The whitelist of the repository scenario, in input order. -/
def whitelistedEmails : List (List Nat) :=
  [email1, email2, email3]

/-- A small executable stand-in for the pluggable hash primitive, used
only to instantiate theorems at concrete inputs: a one-byte rolling
digest. -/
def toyHash (xs : List Nat) : List Nat :=
  [xs.foldl (fun a b => (a * 31 + b) % 256) 7]

/-! Helper lemmas about the embedded operations. -/

/-- XOR with one on an even position moves to the right neighbour. -/
theorem xor_one_of_even {pos : Nat} (h : pos % 2 = 0) : pos ^^^ 1 = pos + 1 := by
  obtain ⟨k, rfl⟩ : ∃ k, pos = 2 * k := ⟨pos / 2, by omega⟩
  have hb : (2 * k : Nat) = Nat.bit false k := by simp [Nat.bit_false]
  have h1 : (1 : Nat) = Nat.bit true 0 := by simp [Nat.bit_true]
  rw [hb, h1, Nat.xor_bit]
  simp [Nat.bit_true]

/-- XOR with one on an odd position moves to the left neighbour. -/
theorem xor_one_of_odd {pos : Nat} (h : pos % 2 = 1) : pos ^^^ 1 = pos - 1 := by
  obtain ⟨k, rfl⟩ : ∃ k, pos = 2 * k + 1 := ⟨pos / 2, by omega⟩
  have hb : (2 * k + 1 : Nat) = Nat.bit true k := by simp [Nat.bit_true]
  have h1 : (1 : Nat) = Nat.bit true 0 := by simp [Nat.bit_true]
  rw [hb, h1, Nat.xor_bit]
  simp [Nat.bit_false]

/-- Byte-wise comparison is total: when a digest is not below another, the
reverse comparison holds. -/
theorem lexLe_total : ∀ a b : List Nat, lexLe a b = false → lexLe b a = true
  | [], _, h => by simp [lexLe] at h
  | _ :: _, [], _ => by simp [lexLe]
  | a :: as, b :: bs, h => by
      simp only [lexLe] at h ⊢
      by_cases hab : a < b
      · simp [hab] at h
      · by_cases hba : b < a
        · simp [hba, Nat.not_lt.mpr (Nat.le_of_lt hba), Nat.not_lt.mpr]
        · have hne : ¬ a < b ∧ ¬ b < a := ⟨hab, hba⟩
          simp [hab, hba] at h ⊢
          exact lexLe_total as bs h

/-- Byte-wise comparison is antisymmetric. -/
theorem lexLe_antisymm : ∀ a b : List Nat, lexLe a b = true → lexLe b a = true → a = b
  | [], [], _, _ => rfl
  | [], _ :: _, _, h2 => by simp [lexLe] at h2
  | _ :: _, [], h1, _ => by simp [lexLe] at h1
  | a :: as, b :: bs, h1, h2 => by
      simp only [lexLe] at h1 h2
      by_cases hab : a < b
      · simp [hab, Nat.not_lt.mpr (Nat.le_of_lt hab)] at h2
      · by_cases hba : b < a
        · simp [hab, hba] at h1
        · have hev : a = b := Nat.le_antisymm (Nat.not_lt.mp hba) (Nat.not_lt.mp hab)
          simp [hab, hba] at h1 h2
          rw [hev, lexLe_antisymm as bs h1 h2]

/-- Sorted concatenation does not depend on the order of its arguments. -/
theorem sortConcat_comm (a b : Digest) : sortConcat a b = sortConcat b a := by
  unfold sortConcat
  by_cases hab : lexLe a b = true
  · by_cases hba : lexLe b a = true
    · rw [lexLe_antisymm a b hab hba]
    · simp [hab, hba]
  · have hba := lexLe_total a b (Bool.eq_false_iff.mpr hab)
    simp [hab, hba]

/-- With sortPairs enabled, the combine step is symmetric in its two
operands: sibling order is irrelevant to the parent digest. -/
theorem combine_sorted_comm (hash : List Nat → Digest) (a b : Digest) :
    combine hash true a b = combine hash true b a := by
  simp [combine, sortConcat_comm a b]

/-- An even layer is left unchanged by padding. -/
theorem padEven_of_even {l : List Digest} (h : l.length % 2 = 0) : padEven l = l := by
  simp [padEven, h]

/-- An odd layer is padded by appending a duplicate of its last digest. -/
theorem padEven_of_odd {l : List Digest} (h : l.length % 2 = 1) :
    padEven l = l ++ [l.getLastD []] := by
  simp [padEven, h]

/-- A padded layer always has even length. -/
theorem padEven_even (l : List Digest) : (padEven l).length % 2 = 0 := by
  rw [padEven_length]
  omega

/-- Padding preserves the digests already in the layer. -/
theorem padEven_getD {l : List Digest} {pos : Nat} (h : pos < l.length) :
    (padEven l).getD pos [] = l.getD pos [] := by
  unfold padEven
  by_cases he : l.length % 2 = 0
  · simp [he]
  · rw [if_neg he, List.getD_append _ _ _ _ h]

/-- Unfolding: a layer of at most one digest is already the whole tree. -/
theorem buildLayers_of_le_one {l : List Digest} (hash : List Nat → Digest)
    (sortPairs : Bool) (h : l.length ≤ 1) : buildLayers hash sortPairs l = [l] := by
  rw [buildLayers]
  simp [h]

/-- Unfolding: a layer of two or more digests is padded, reduced and the
construction recurses. -/
theorem buildLayers_of_lt {l : List Digest} (hash : List Nat → Digest)
    (sortPairs : Bool) (h : 1 < l.length) :
    buildLayers hash sortPairs l =
      l :: buildLayers hash sortPairs (reduceLayer hash sortPairs (padEven l)) := by
  rw [buildLayers]
  simp [Nat.not_le.mpr h]

/-- The layer sequence of a construction is never empty. -/
theorem buildLayers_ne_nil (hash : List Nat → Digest) (sortPairs : Bool)
    (l : List Digest) : buildLayers hash sortPairs l ≠ [] := by
  by_cases h : l.length ≤ 1
  · simp [buildLayers_of_le_one hash sortPairs h]
  · simp [buildLayers_of_lt hash sortPairs (Nat.not_le.mp h)]

/-- The bottom layer of a construction is the input layer. -/
theorem buildLayers_head (hash : List Nat → Digest) (sortPairs : Bool)
    (l : List Digest) : ∃ tl, buildLayers hash sortPairs l = l :: tl := by
  by_cases h : l.length ≤ 1
  · exact ⟨[], buildLayers_of_le_one hash sortPairs h⟩
  · exact ⟨_, buildLayers_of_lt hash sortPairs (Nat.not_le.mp h)⟩

/-- The root of a layer sequence ignores the bottom layer as long as a
higher layer exists. -/
theorem rootOfLayers_cons {ls : List (List Digest)} (l : List Digest) (h : ls ≠ []) :
    rootOfLayers (l :: ls) = rootOfLayers ls := by
  unfold rootOfLayers
  cases ls with
  | nil => exact absurd rfl h
  | cons m ms =>
      rw [List.getLastD_eq_getLast?, List.getLastD_eq_getLast?, List.getLast?_cons_cons]

/-- The layer sequence of a one-leaf tree. -/
theorem buildLayers_one (hash : List Nat → Digest) (sortPairs : Bool) (a : Digest) :
    buildLayers hash sortPairs [a] = [[a]] :=
  buildLayers_of_le_one hash sortPairs (by simp)

/-- The layer sequence of a two-leaf tree. -/
theorem buildLayers_two (hash : List Nat → Digest) (sortPairs : Bool) (a b : Digest) :
    buildLayers hash sortPairs [a, b] =
      [[a, b], [combine hash sortPairs a b]] := by
  rw [buildLayers_of_lt hash sortPairs (by simp)]
  rw [padEven_of_even (by simp)]
  simp only [reduceLayer]
  rw [buildLayers_of_le_one hash sortPairs (by simp)]

/-- The layer sequence of a three-leaf tree: the leaf layer is padded with
a duplicate of the third leaf, reduced to two digests, and reduced again
to the root. -/
theorem buildLayers_three (hash : List Nat → Digest) (sortPairs : Bool) (a b c : Digest) :
    buildLayers hash sortPairs [a, b, c] =
      [[a, b, c],
       [combine hash sortPairs a b, combine hash sortPairs c c],
       [combine hash sortPairs (combine hash sortPairs a b)
          (combine hash sortPairs c c)]] := by
  rw [buildLayers_of_lt hash sortPairs (by simp)]
  rw [padEven_of_odd (by simp)]
  simp only [List.getLastD_cons, List.getLastD_nil, List.cons_append, List.nil_append,
    reduceLayer]
  rw [buildLayers_two]

/-- The layer sequence of a four-leaf tree. -/
theorem buildLayers_four (hash : List Nat → Digest) (sortPairs : Bool) (a b c d : Digest) :
    buildLayers hash sortPairs [a, b, c, d] =
      [[a, b, c, d],
       [combine hash sortPairs a b, combine hash sortPairs c d],
       [combine hash sortPairs (combine hash sortPairs a b)
          (combine hash sortPairs c d)]] := by
  rw [buildLayers_of_lt hash sortPairs (by simp)]
  rw [padEven_of_even (by simp)]
  simp only [reduceLayer]
  rw [buildLayers_two]

/-- A successful position lookup is in range, hits the digest, and is the
first hit. -/
theorem findPos_some {d : Digest} :
    ∀ {l : List Digest} {i : Nat}, findPos d l = some i →
      i < l.length ∧ l.getD i [] = d ∧ ∀ k, k < i → l.getD k [] ≠ d := by
  intro l
  induction l with
  | nil => intro i h; simp [findPos] at h
  | cons x xs ih =>
      intro i h
      by_cases hx : x = d
      · simp [findPos, hx] at h
        subst h
        exact ⟨by simp, by simp [hx], by omega⟩
      · simp [findPos, hx] at h
        obtain ⟨j, hj, rfl⟩ := h
        obtain ⟨h1, h2, h3⟩ := ih hj
        refine ⟨by simpa using h1, by simpa using h2, ?_⟩
        intro k hk
        cases k with
        | zero => simpa using hx
        | succ k => simpa using h3 k (by omega)

/-- A digest present in a layer has a position. -/
theorem findPos_of_mem {d : Digest} :
    ∀ {l : List Digest}, d ∈ l → ∃ i, findPos d l = some i := by
  intro l
  induction l with
  | nil => intro h; simp at h
  | cons x xs ih =>
      intro h
      by_cases hx : x = d
      · exact ⟨0, by simp [findPos, hx]⟩
      · have hm : d ∈ xs := by
          cases h with
          | head => exact absurd rfl hx
          | tail _ h => exact h
        obtain ⟨i, hi⟩ := ih hm
        exact ⟨i + 1, by simp [findPos, hx, hi]⟩

/-- A digest absent from a layer has no position. -/
theorem findPos_of_not_mem {d : Digest} :
    ∀ {l : List Digest}, d ∉ l → findPos d l = none := by
  intro l
  induction l with
  | nil => intro _; rfl
  | cons x xs ih =>
      intro h
      have hx : x ≠ d := fun he => h (he ▸ List.mem_cons_self x xs)
      have hm : d ∉ xs := fun hm => h (List.mem_cons_of_mem x hm)
      simp [findPos, hx, ih hm]

/-- A proof records exactly one step per reduction pass: its length is the
number of layers below the root. -/
theorem proofSteps_length :
    ∀ (layers : List (List Digest)) (pos : Nat),
      (proofSteps layers pos).length = layers.length - 1
  | [], _ => by simp [proofSteps]
  | [_], _ => by simp [proofSteps]
  | _ :: next :: rest, pos => by
      simp [proofSteps, proofSteps_length (next :: rest) (pos / 2)]

/-- The number of layers is the ceiling base-two logarithm of the leaf
count, plus one for the leaf layer itself. -/
theorem buildLayers_length (hash : List Nat → Digest) (sortPairs : Bool)
    (l : List Digest) (h : l ≠ []) :
    (buildLayers hash sortPairs l).length = Nat.clog 2 l.length + 1 := by
  by_cases h1 : l.length ≤ 1
  · have hl : l.length = 1 := by
      cases l with
      | nil => exact absurd rfl h
      | cons x xs => simp only [List.length_cons] at h1 ⊢; omega
    rw [buildLayers_of_le_one hash sortPairs h1, hl]
    simp [Nat.clog_one_right]
  · have h2 : 2 ≤ l.length := by omega
    rw [buildLayers_of_lt hash sortPairs (by omega)]
    have hnl : (reduceLayer hash sortPairs (padEven l)).length = (l.length + 1) / 2 := by
      rw [reduceLayer_length, padEven_length]
      omega
    have hne : reduceLayer hash sortPairs (padEven l) ≠ [] := by
      intro he
      rw [he] at hnl
      simp at hnl
      omega
    have ih := buildLayers_length hash sortPairs (reduceLayer hash sortPairs (padEven l)) hne
    rw [List.length_cons, ih, hnl]
    rw [Nat.clog_of_two_le (by norm_num) h2]
    have harg : l.length + 2 - 1 = l.length + 1 := by omega
    rw [harg]
  termination_by l.length
  decreasing_by
    simp [reduceLayer_length, padEven_length]
    omega

/-- The parent digest at position k of a reduced layer combines the two
digests paired at positions 2k and 2k+1. -/
theorem reduceLayer_getD (hash : List Nat → Digest) (sortPairs : Bool) :
    ∀ (l : List Digest) (k : Nat), 2 * k + 1 < l.length →
      (reduceLayer hash sortPairs l).getD k [] =
        combine hash sortPairs (l.getD (2 * k) []) (l.getD (2 * k + 1) [])
  | [], k, h => by simp at h
  | [_], k, h => by simp only [List.length_singleton] at h; omega
  | a :: b :: rest, 0, _ => by simp [reduceLayer]
  | a :: b :: rest, k + 1, h => by
      have h' : 2 * k + 1 < rest.length := by
        simp only [List.length_cons] at h
        omega
      have e1 : 2 * (k + 1) = (2 * k + 1) + 1 := by omega
      have e2 : 2 * (k + 1) + 1 = (2 * k + 1 + 1) + 1 := by omega
      rw [e2, e1]
      simp only [reduceLayer, List.getD_cons_succ]
      exact reduceLayer_getD hash sortPairs rest k h'

/-- One verifier step agrees with the construction combine of the pair the
position belongs to: the sibling at position XOR 1, placed by the side
indicator (or re-sorted), recombines to the parent of positions
(2(pos/2), 2(pos/2)+1). -/
theorem orderedConcat_step (hash : List Nat → Digest) (sortPairs : Bool)
    (l : List Digest) (pos : Nat) :
    hash (orderedConcat sortPairs (l.getD pos []) (l.getD (pos ^^^ 1) [])
        (pos % 2 == 1)) =
      combine hash sortPairs (l.getD (2 * (pos / 2)) [])
        (l.getD (2 * (pos / 2) + 1) []) := by
  by_cases hp : pos % 2 = 0
  · rw [xor_one_of_even hp]
    have e1 : 2 * (pos / 2) = pos := by omega
    have hb : (pos % 2 == 1) = false := by simp [hp]
    rw [e1, hb]
    unfold orderedConcat combine
    cases sortPairs <;> simp
  · have hp1 : pos % 2 = 1 := by omega
    rw [xor_one_of_odd hp1]
    have e1 : 2 * (pos / 2) = pos - 1 := by omega
    have e2 : 2 * (pos / 2) + 1 = pos := by omega
    have hb : (pos % 2 == 1) = true := by simp [hp1]
    rw [e2, e1, hb]
    unfold orderedConcat combine
    cases sortPairs
    · simp
    · simp [sortConcat_comm]

/-- Soundness of the proof walk against the layer construction: starting
from the digest at any leaf position and folding the recorded sibling
steps reproduces the root. -/
theorem verifyFold_proofSteps (hash : List Nat → Digest) (sortPairs : Bool)
    (l : List Digest) (pos : Nat) (hpos : pos < l.length) :
    verifyFold hash sortPairs (l.getD pos [])
        (proofSteps (buildLayers hash sortPairs l) pos) =
      rootOfLayers (buildLayers hash sortPairs l) := by
  by_cases h1 : l.length ≤ 1
  · obtain ⟨x, rfl⟩ : ∃ x, l = [x] := by
      cases l with
      | nil => simp at hpos
      | cons a as =>
          cases as with
          | nil => exact ⟨a, rfl⟩
          | cons b bs => simp only [List.length_cons] at h1; omega
    have hp0 : pos = 0 := by
      simp only [List.length_singleton] at hpos
      omega
    subst hp0
    rw [buildLayers_one]
    simp [proofSteps, verifyFold, rootOfLayers]
  · have h2 : 1 < l.length := by omega
    have hnl : (reduceLayer hash sortPairs (padEven l)).length = (l.length + 1) / 2 := by
      rw [reduceLayer_length, padEven_length]
      omega
    obtain ⟨tl, htl⟩ := buildLayers_head hash sortPairs
      (reduceLayer hash sortPairs (padEven l))
    have hbound : 2 * (pos / 2) + 1 < (padEven l).length := by
      rw [padEven_length]
      omega
    have hpos2 : pos / 2 < (reduceLayer hash sortPairs (padEven l)).length := by
      rw [hnl]
      omega
    have ih := verifyFold_proofSteps hash sortPairs
      (reduceLayer hash sortPairs (padEven l)) (pos / 2) hpos2
    rw [buildLayers_of_lt hash sortPairs h2, htl]
    simp only [proofSteps, verifyFold]
    rw [← padEven_getD hpos, orderedConcat_step hash sortPairs (padEven l) pos,
      ← reduceLayer_getD hash sortPairs (padEven l) (pos / 2) hbound]
    rw [htl] at ih
    rw [ih, rootOfLayers_cons l (by simp)]
  termination_by l.length
  decreasing_by
    rw [hnl]
    omega

/-- The last-element read of a nonempty layer ignores the default. -/
theorem getLastD_irrel : ∀ (m : List Digest), m ≠ [] → ∀ d dd : Digest,
    m.getLastD d = m.getLastD dd
  | [], h, _, _ => absurd rfl h
  | _ :: _, _, _, _ => by rw [List.getLastD_cons, List.getLastD_cons]

/-- The last element of an append with a nonempty right part comes from the
right part. -/
theorem getLastD_append (m : List Digest) (hm : m ≠ []) (l : List Digest) (d : Digest) :
    (l ++ m).getLastD d = m.getLastD d := by
  induction l with
  | nil => rfl
  | cons x xs ih =>
      rw [List.cons_append, List.getLastD_cons]
      have hne : xs ++ m ≠ [] := by
        intro he
        exact hm ((List.append_eq_nil.mp he).2)
      rw [getLastD_irrel (xs ++ m) hne x d, ih]

/-- Padding a layer that extends an even-length prefix only touches the
tail after the prefix and the adjacent pair. -/
theorem padEven_append_pair {m1 : List Digest} (a b : Digest) (m2 : List Digest)
    (h : m1.length % 2 = 0) :
    padEven (m1 ++ a :: b :: m2) = m1 ++ a :: b :: padEven m2 := by
  by_cases hm : m2.length % 2 = 0
  · rw [padEven_of_even (by simp only [List.length_append, List.length_cons]; omega),
      padEven_of_even hm]
  · have hm1 : m2.length % 2 = 1 := by omega
    have hm2 : m2 ≠ [] := by
      intro he
      rw [he] at hm1
      simp at hm1
    rw [padEven_of_odd (l := m1 ++ a :: b :: m2)
      (by simp only [List.length_append, List.length_cons]; omega)]
    rw [padEven_of_odd hm1]
    have hlast : (m1 ++ a :: b :: m2).getLastD [] = m2.getLastD [] := by
      rw [getLastD_append (a :: b :: m2) (by simp) m1 []]
      rw [List.getLastD_cons, List.getLastD_cons]
      exact getLastD_irrel m2 hm2 b []
    rw [hlast]
    simp [List.append_assoc]

/-- A reduction pass distributes over an append at an even boundary. -/
theorem reduceLayer_append (hash : List Nat → Digest) (sortPairs : Bool) :
    ∀ (l m : List Digest), l.length % 2 = 0 →
      reduceLayer hash sortPairs (l ++ m) =
        reduceLayer hash sortPairs l ++ reduceLayer hash sortPairs m
  | [], _, _ => rfl
  | [_], _, h => by simp only [List.length_singleton] at h; omega
  | a :: b :: rest, m, h => by
      have h' : rest.length % 2 = 0 := by
        simp only [List.length_cons] at h
        omega
      simp only [List.cons_append, List.append_eq, reduceLayer,
        reduceLayer_append hash sortPairs rest m h']

/-- With sortPairs enabled, swapping the two digests of a pair aligned at
an even position of the leaf layer leaves the root unchanged. -/
theorem swap_pair_root (hash : List Nat → Digest) (m1 : List Digest) (a b : Digest)
    (m2 : List Digest) (h : m1.length % 2 = 0) :
    rootOfLayers (buildLayers hash true (m1 ++ a :: b :: m2)) =
      rootOfLayers (buildLayers hash true (m1 ++ b :: a :: m2)) := by
  have hlen : 1 < (m1 ++ a :: b :: m2).length := by
    simp only [List.length_append, List.length_cons]
    omega
  have hlen2 : 1 < (m1 ++ b :: a :: m2).length := by
    simp only [List.length_append, List.length_cons]
    omega
  rw [buildLayers_of_lt hash true hlen, buildLayers_of_lt hash true hlen2]
  have hred : reduceLayer hash true (padEven (m1 ++ a :: b :: m2)) =
      reduceLayer hash true (padEven (m1 ++ b :: a :: m2)) := by
    rw [padEven_append_pair a b m2 h, padEven_append_pair b a m2 h,
      reduceLayer_append hash true m1 _ h, reduceLayer_append hash true m1 _ h]
    simp only [reduceLayer]
    rw [combine_sorted_comm hash a b]
  rw [hred]
  rw [rootOfLayers_cons (m1 ++ a :: b :: m2) (buildLayers_ne_nil hash true _),
    rootOfLayers_cons (m1 ++ b :: a :: m2) (buildLayers_ne_nil hash true _)]

/-- A successful construction records exactly the reduced layers over the
hashed items, and only happens on nonempty input. -/
theorem build_ok {hash : List Nat → Digest} {sortPairs : Bool}
    {items : List (List Nat)} {t : Tree} (hb : build hash sortPairs items = .ok t) :
    items ≠ [] ∧ t.layers = buildLayers hash sortPairs (leafNodes hash items) := by
  unfold build at hb
  by_cases he : items.isEmpty
  · rw [if_pos he] at hb
    exact absurd hb (by simp)
  · rw [if_neg he] at hb
    refine ⟨by simpa [List.isEmpty_iff] using he, ?_⟩
    injection hb with h
    rw [← h]

/-- The leaf layer of a successfully built tree is the hashed item
sequence. -/
theorem leaves_of_build {hash : List Nat → Digest} {sortPairs : Bool}
    {items : List (List Nat)} {t : Tree} (hb : build hash sortPairs items = .ok t) :
    t.leaves = leafNodes hash items := by
  obtain ⟨hne, hl⟩ := build_ok hb
  obtain ⟨tl, htl⟩ := buildLayers_head hash sortPairs (leafNodes hash items)
  rw [Tree.leaves, hl, htl]
  rfl

/-! Claim theorems. -/

/-- Claim C5: tree construction with an empty item sequence fails with
EmptyInputError, and every nonempty item sequence builds successfully. -/
theorem empty_input_error_nonempty_ok (hash : List Nat → Digest) (sortPairs : Bool) :
    build hash sortPairs [] = .error .emptyInput ∧
      ∀ items : List (List Nat), items ≠ [] →
        ∃ t, build hash sortPairs items = .ok t := by
  constructor
  · rfl
  · intro items hne
    refine ⟨⟨buildLayers hash sortPairs (leafNodes hash items)⟩, ?_⟩
    unfold build
    rw [if_neg (by simpa [List.isEmpty_iff] using hne)]

/-- Witness for C5 at concrete inputs. -/
theorem empty_input_error_nonempty_ok_witness :
    build toyHash true [] = .error .emptyInput ∧
      ∃ t, build toyHash true [[0]] = .ok t :=
  ⟨(empty_input_error_nonempty_ok toyHash true).1,
   (empty_input_error_nonempty_ok toyHash true).2 [[0]] (by simp)⟩

/-- Claim C4: proof generation for an item whose hash is absent from the
leaf layer fails with NotFoundError and never returns a proof value. -/
theorem absent_item_not_found (hash : List Nat → Digest) (sortPairs : Bool)
    (items : List (List Nat)) (t : Tree) (item : List Nat)
    (hb : build hash sortPairs items = .ok t)
    (habs : hash item ∉ leafNodes hash items) :
    generateMerkleProof hash t item = .error .notFound ∧
      ∀ p, generateMerkleProof hash t item ≠ .ok p := by
  have hl := leaves_of_build hb
  have hfp : findPos (hash item) t.leaves = none := by
    rw [hl]
    exact findPos_of_not_mem habs
  have hgen : generateMerkleProof hash t item = .error .notFound := by
    unfold generateMerkleProof
    rw [hfp]
  refine ⟨hgen, fun p hp => ?_⟩
  rw [hgen] at hp
  exact Except.noConfusion hp

/-- Witness for C4 at concrete inputs. -/
theorem absent_item_not_found_witness :
    generateMerkleProof toyHash
        ⟨buildLayers toyHash true (leafNodes toyHash [[1]])⟩ [2] = .error .notFound ∧
      ∀ p, generateMerkleProof toyHash
        ⟨buildLayers toyHash true (leafNodes toyHash [[1]])⟩ [2] ≠ .ok p :=
  absent_item_not_found toyHash true [[1]] _ [2] rfl (by decide)

/-- Claim C8: construction is deterministic; fixed items, hash primitive
and sortPairs setting give byte-for-byte identical roots across two
independent constructions. -/
theorem deterministic_root (h1 h2 : List Nat → Digest) (sp1 sp2 : Bool)
    (items1 items2 : List (List Nat)) (t1 t2 : Tree)
    (hh : ∀ x, h1 x = h2 x) (hi : items1 = items2) (hs : sp1 = sp2)
    (hb1 : build h1 sp1 items1 = .ok t1) (hb2 : build h2 sp2 items2 = .ok t2) :
    t1.root = t2.root := by
  have hfun : h1 = h2 := funext hh
  subst hfun
  subst hi
  subst hs
  rw [hb1] at hb2
  injection hb2 with h
  rw [h]

/-- Witness for C8 at concrete inputs. -/
theorem deterministic_root_witness :
    (Tree.mk (buildLayers toyHash true (leafNodes toyHash [[1], [2]]))).root =
      (Tree.mk (buildLayers toyHash true (leafNodes toyHash [[1], [2]]))).root :=
  deterministic_root toyHash toyHash true true [[1], [2]] [[1], [2]] _ _
    (fun _ => rfl) rfl rfl rfl rfl

/-- Claim C2: every odd layer is padded by duplicating its last digest
before pairing, construction pads then reduces at each step, and the root
of a three-item tree equals the root over the manually duplicated
four-leaf layer. -/
theorem odd_padding_duplicates_last (hash : List Nat → Digest) (sortPairs : Bool) :
    (∀ l : List Digest, l.length % 2 = 1 → padEven l = l ++ [l.getLastD []]) ∧
    (∀ l : List Digest, 1 < l.length →
       buildLayers hash sortPairs l =
         l :: buildLayers hash sortPairs (reduceLayer hash sortPairs (padEven l))) ∧
    (∀ a b c : Digest,
       rootOfLayers (buildLayers hash sortPairs [a, b, c]) =
         rootOfLayers (buildLayers hash sortPairs [a, b, c, c])) := by
  refine ⟨fun l h => padEven_of_odd h,
    fun l h => buildLayers_of_lt hash sortPairs h, fun a b c => ?_⟩
  rw [buildLayers_three, buildLayers_four]
  rfl

/-- Witness for C2 at concrete inputs. -/
theorem odd_padding_duplicates_last_witness :
    padEven [[5], [6], [7]] = [[5], [6], [7]] ++ [([[5], [6], [7]] : List Digest).getLastD []] ∧
    buildLayers toyHash true [[5], [6]] =
      [[5], [6]] :: buildLayers toyHash true (reduceLayer toyHash true (padEven [[5], [6]])) ∧
    rootOfLayers (buildLayers toyHash true [[5], [6], [7]]) =
      rootOfLayers (buildLayers toyHash true [[5], [6], [7], [7]]) :=
  ⟨(odd_padding_duplicates_last toyHash true).1 [[5], [6], [7]] (by decide),
   (odd_padding_duplicates_last toyHash true).2.1 [[5], [6]] (by decide),
   (odd_padding_duplicates_last toyHash true).2.2 [5] [6] [7]⟩

/-- Claim C1: in the whitelist scenario with sortPairs enabled, the leaf
layer of three hashed emails is padded to four leaves by duplicating the
last leaf, the tree has height two, and the proof generated for the
second email has exactly two steps. -/
theorem scenario_email2_two_step_proof (hash : List Nat → Digest) :
    ∃ t, build hash true whitelistedEmails = .ok t ∧
      (padEven (leafNodes hash whitelistedEmails)).length = 4 ∧
      padEven (leafNodes hash whitelistedEmails) =
        leafNodes hash whitelistedEmails ++ [hash email3] ∧
      t.height = 2 ∧
      ∃ p, generateMerkleProof hash t email2 = .ok p ∧ p.length = 2 := by
  have hleaf : leafNodes hash whitelistedEmails =
      [hash email1, hash email2, hash email3] := rfl
  refine ⟨⟨buildLayers hash true (leafNodes hash whitelistedEmails)⟩, rfl, ?_, ?_, ?_, ?_⟩
  · rw [padEven_length, hleaf]
    simp
  · rw [hleaf, padEven_of_odd (by simp)]
    simp
  · rw [Tree.height, hleaf, buildLayers_three]
    rfl
  · have hmem : hash email2 ∈ leafNodes hash whitelistedEmails := by
      rw [hleaf]
      simp
    obtain ⟨pos, hpos⟩ := findPos_of_mem hmem
    have hleaves : (Tree.mk (buildLayers hash true (leafNodes hash whitelistedEmails))).leaves =
        leafNodes hash whitelistedEmails := by
      obtain ⟨tl, htl⟩ := buildLayers_head hash true (leafNodes hash whitelistedEmails)
      rw [Tree.leaves, htl]
      rfl
    refine ⟨proofSteps (buildLayers hash true (leafNodes hash whitelistedEmails)) pos, ?_, ?_⟩
    · unfold generateMerkleProof
      rw [hleaves, hpos]
    · rw [proofSteps_length, hleaf, buildLayers_three]
      rfl

/-- Claim C3: the proof generated for any present item has length equal to
the tree height, which is the ceiling base-two logarithm of the leaf
count; the proof is empty exactly for the single-leaf tree, whose root is
the hash of its one item. -/
theorem proof_length_eq_tree_height (hash : List Nat → Digest) (sortPairs : Bool)
    (items : List (List Nat)) (t : Tree) (item : List Nat)
    (hb : build hash sortPairs items = .ok t)
    (hmem : hash item ∈ leafNodes hash items) :
    ∃ p, generateMerkleProof hash t item = .ok p ∧
      p.length = t.height ∧
      t.height = Nat.clog 2 items.length ∧
      (p = [] ↔ items.length = 1) ∧
      (items.length = 1 → t.root = hash (items.headD [])) := by
  obtain ⟨hne, hl⟩ := build_ok hb
  have hleaves := leaves_of_build hb
  have hlne : leafNodes hash items ≠ [] := by
    simpa [leafNodes] using hne
  have hlen : (leafNodes hash items).length = items.length := by
    simp [leafNodes]
  obtain ⟨pos, hpos⟩ := findPos_of_mem hmem
  have hheight : t.height = Nat.clog 2 items.length := by
    rw [Tree.height, hl, buildLayers_length hash sortPairs _ hlne, hlen]
    omega
  refine ⟨proofSteps t.layers pos, ?_, ?_, hheight, ?_, ?_⟩
  · unfold generateMerkleProof
    rw [hleaves, hpos]
  · rw [proofSteps_length, Tree.height]
  · constructor
    · intro hp
      have h0 : (proofSteps t.layers pos).length = 0 := by
        rw [hp]
        rfl
      rw [proofSteps_length, hl, buildLayers_length hash sortPairs _ hlne, hlen] at h0
      simp only [Nat.add_sub_cancel] at h0
      by_contra hn1
      have h2 : 2 ≤ items.length := by
        have hpos0 : 0 < items.length := List.length_pos.mpr hne
        omega
      have hcp : 0 < Nat.clog 2 items.length := Nat.clog_pos Nat.one_lt_two h2
      omega
    · intro h1
      have h0 : (proofSteps t.layers pos).length = 0 := by
        rw [proofSteps_length, hl, buildLayers_length hash sortPairs _ hlne, hlen, h1]
        simp [Nat.clog_one_right]
      exact List.length_eq_zero.mp h0
  · intro h1
    obtain ⟨x, rfl⟩ := List.length_eq_one.mp h1
    have hlx : leafNodes hash [x] = [hash x] := rfl
    rw [Tree.root, hl, hlx, buildLayers_one]
    rfl

/-- Witness for C3 at concrete inputs. -/
theorem proof_length_eq_tree_height_witness :
    ∃ p, generateMerkleProof toyHash
        ⟨buildLayers toyHash true (leafNodes toyHash [[1], [2]])⟩ [1] = .ok p ∧
      p.length = (Tree.mk (buildLayers toyHash true (leafNodes toyHash [[1], [2]]))).height ∧
      (Tree.mk (buildLayers toyHash true (leafNodes toyHash [[1], [2]]))).height =
        Nat.clog 2 ([[1], [2]] : List (List Nat)).length ∧
      (p = [] ↔ ([[1], [2]] : List (List Nat)).length = 1) ∧
      (([[1], [2]] : List (List Nat)).length = 1 →
        (Tree.mk (buildLayers toyHash true (leafNodes toyHash [[1], [2]]))).root =
          toyHash (([[1], [2]] : List (List Nat)).headD [])) :=
  proof_length_eq_tree_height toyHash true [[1], [2]] _ [1] rfl (by decide)

/-- Claim C6: membership soundness; for every item of the input set, the
generated proof verifies against the tree root under the same hash
primitive and sortPairs setting. -/
theorem membership_soundness (hash : List Nat → Digest) (sortPairs : Bool)
    (items : List (List Nat)) (t : Tree) (item : List Nat)
    (hmem : item ∈ items) (hb : build hash sortPairs items = .ok t) :
    ∃ p, generateMerkleProof hash t item = .ok p ∧
      verify hash sortPairs item p t.root = true := by
  obtain ⟨hne, hl⟩ := build_ok hb
  have hleaves := leaves_of_build hb
  have hmem2 : hash item ∈ leafNodes hash items := List.mem_map_of_mem hash hmem
  obtain ⟨pos, hpos⟩ := findPos_of_mem hmem2
  obtain ⟨hlt, hget, _⟩ := findPos_some hpos
  refine ⟨proofSteps t.layers pos, ?_, ?_⟩
  · unfold generateMerkleProof
    rw [hleaves, hpos]
  · unfold verify
    rw [hl, Tree.root, hl]
    have hsound := verifyFold_proofSteps hash sortPairs (leafNodes hash items) pos hlt
    rw [hget] at hsound
    rw [hsound]
    simp

/-- Witness for C6 at concrete inputs: the scenario whitelist and its
second email. -/
theorem membership_soundness_witness :
    ∃ p, generateMerkleProof toyHash
        ⟨buildLayers toyHash true (leafNodes toyHash whitelistedEmails)⟩ email2 = .ok p ∧
      verify toyHash true email2 p
        (Tree.root ⟨buildLayers toyHash true (leafNodes toyHash whitelistedEmails)⟩) = true :=
  membership_soundness toyHash true whitelistedEmails _ email2 (by decide) rfl

/-- Claim C7: proof generation locates the first matching position in the
leaf layer; earlier positions never hold the item hash, so the proof
returned for a duplicated leaf is the one of the first occurrence. -/
theorem duplicate_leaves_first_match (hash : List Nat → Digest) (sortPairs : Bool)
    (items : List (List Nat)) (t : Tree) (item : List Nat)
    (hb : build hash sortPairs items = .ok t)
    (hmem : hash item ∈ leafNodes hash items) :
    ∃ i, findPos (hash item) (leafNodes hash items) = some i ∧
      (leafNodes hash items).getD i [] = hash item ∧
      (∀ k, k < i → (leafNodes hash items).getD k [] ≠ hash item) ∧
      generateMerkleProof hash t item = .ok (proofSteps t.layers i) := by
  have hleaves := leaves_of_build hb
  obtain ⟨i, hi⟩ := findPos_of_mem hmem
  obtain ⟨_, hget, hfirst⟩ := findPos_some hi
  refine ⟨i, hi, hget, hfirst, ?_⟩
  unfold generateMerkleProof
  rw [hleaves, hi]

/-- Witness for C7 at concrete inputs with an actual duplicate leaf. -/
theorem duplicate_leaves_first_match_witness :
    ∃ i, findPos (toyHash [1]) (leafNodes toyHash [[1], [2], [1]]) = some i ∧
      (leafNodes toyHash [[1], [2], [1]]).getD i [] = toyHash [1] ∧
      (∀ k, k < i → (leafNodes toyHash [[1], [2], [1]]).getD k [] ≠ toyHash [1]) ∧
      generateMerkleProof toyHash
          ⟨buildLayers toyHash true (leafNodes toyHash [[1], [2], [1]])⟩ [1] =
        .ok (proofSteps (buildLayers toyHash true (leafNodes toyHash [[1], [2], [1]])) i) :=
  duplicate_leaves_first_match toyHash true [[1], [2], [1]] _ [1] rfl (by decide)

/-- Claim C9: with sortPairs enabled, swapping two input items whose
hashes are paired together in the leaf layer leaves the root unchanged;
with sortPairs disabled, reordering the inputs can change the root. -/
theorem sorted_pairs_invariance :
    (∀ (hash : List Nat → Digest) (l1 : List (List Nat)) (x y : List Nat)
        (l2 : List (List Nat)) (t tt : Tree), l1.length % 2 = 0 →
        build hash true (l1 ++ x :: y :: l2) = .ok t →
        build hash true (l1 ++ y :: x :: l2) = .ok tt →
        t.root = tt.root) ∧
    (∃ (hash : List Nat → Digest) (items iperm : List (List Nat)) (t tt : Tree),
        items.Perm iperm ∧ build hash false items = .ok t ∧
        build hash false iperm = .ok tt ∧ t.root ≠ tt.root) := by
  constructor
  · intro hash l1 x y l2 t tt hpar hb1 hb2
    obtain ⟨_, hl1⟩ := build_ok hb1
    obtain ⟨_, hl2⟩ := build_ok hb2
    rw [Tree.root, Tree.root, hl1, hl2]
    have hmap1 : leafNodes hash (l1 ++ x :: y :: l2) =
        leafNodes hash l1 ++ hash x :: hash y :: leafNodes hash l2 := by
      simp [leafNodes]
    have hmap2 : leafNodes hash (l1 ++ y :: x :: l2) =
        leafNodes hash l1 ++ hash y :: hash x :: leafNodes hash l2 := by
      simp [leafNodes]
    rw [hmap1, hmap2]
    exact swap_pair_root hash (leafNodes hash l1) (hash x) (hash y)
      (leafNodes hash l2) (by simp [leafNodes, hpar])
  · refine ⟨toyHash, [[0], [1]], [[1], [0]],
      ⟨buildLayers toyHash false (leafNodes toyHash [[0], [1]])⟩,
      ⟨buildLayers toyHash false (leafNodes toyHash [[1], [0]])⟩,
      by decide, rfl, rfl, ?_⟩
    rw [Tree.root, Tree.root]
    have e1 : leafNodes toyHash [[0], [1]] = [toyHash [0], toyHash [1]] := rfl
    have e2 : leafNodes toyHash [[1], [0]] = [toyHash [1], toyHash [0]] := rfl
    rw [e1, e2, buildLayers_two, buildLayers_two]
    decide

/-- Witness for C9 at concrete inputs: the swap half applied to a
three-item whitelist. -/
theorem sorted_pairs_invariance_witness :
    (Tree.mk (buildLayers toyHash true (leafNodes toyHash ([] ++ [0] :: [1] :: [[2]])))).root =
      (Tree.mk (buildLayers toyHash true (leafNodes toyHash ([] ++ [1] :: [0] :: [[2]])))).root :=
  sorted_pairs_invariance.1 toyHash [] [0] [1] [[2]] _ _ (by decide) rfl rfl

/-- Claim C10 counterexample: under the documented duplicate-last padding
policy, the proof generated for the third whitelisted email at a concrete
hash primitive has two steps, not one; the unpaired last leaf is not
carried up alone but paired with its own duplicate. -/
theorem scenario_email3_proof_not_single_step :
    ∃ p, generateMerkleProof toyHash
        ⟨buildLayers toyHash true (leafNodes toyHash whitelistedEmails)⟩ email3 = .ok p ∧
      p.length = 2 ∧ ¬ p.length = 1 := by
  have el : leafNodes toyHash whitelistedEmails = [[153], [26], [155]] := by decide
  have e : buildLayers toyHash true (leafNodes toyHash whitelistedEmails) =
      [[[153], [26], [155]], [[6], [167]], [[168]]] := by
    rw [el, buildLayers_three]
    decide
  rw [e]
  exact ⟨[⟨[155], false⟩, ⟨[6], true⟩], rfl, rfl, by decide⟩

/-- Claim C10 amended: for any hash primitive keeping the three emails
distinct, proof generation for the third email returns a proof of exactly
two steps, the first step pairing the leaf with its own padded duplicate
as sibling. -/
theorem scenario_email3_two_step_proof (hash : List Nat → Digest)
    (h13 : hash email1 ≠ hash email3) (h23 : hash email2 ≠ hash email3) :
    ∃ t p, build hash true whitelistedEmails = .ok t ∧
      generateMerkleProof hash t email3 = .ok p ∧
      p.length = 2 ∧
      p.getD 0 ⟨[], false⟩ = ⟨hash email3, false⟩ := by
  have hleaf : leafNodes hash whitelistedEmails =
      [hash email1, hash email2, hash email3] := rfl
  have hfp : findPos (hash email3) [hash email1, hash email2, hash email3] = some 2 := by
    simp [findPos, h13, h23]
  have hleaves : (Tree.mk (buildLayers hash true (leafNodes hash whitelistedEmails))).leaves =
      leafNodes hash whitelistedEmails := by
    obtain ⟨tl, htl⟩ := buildLayers_head hash true (leafNodes hash whitelistedEmails)
    rw [Tree.leaves, htl]
    rfl
  refine ⟨⟨buildLayers hash true (leafNodes hash whitelistedEmails)⟩,
    proofSteps (buildLayers hash true (leafNodes hash whitelistedEmails)) 2,
    rfl, ?_, ?_, ?_⟩
  · unfold generateMerkleProof
    rw [hleaves, hleaf, hfp]
  · rw [proofSteps_length, hleaf, buildLayers_three]
    rfl
  · rw [hleaf, buildLayers_three]
    simp [proofSteps, padEven]

/-- Witness for the amended C10 at a concrete hash primitive. -/
theorem scenario_email3_two_step_proof_witness :
    ∃ t p, build toyHash true whitelistedEmails = .ok t ∧
      generateMerkleProof toyHash t email3 = .ok p ∧
      p.length = 2 ∧
      p.getD 0 ⟨[], false⟩ = ⟨toyHash email3, false⟩ :=
  scenario_email3_two_step_proof toyHash (by decide) (by decide)

end MTree
